import Mathlib

/-!
Shallow embedding of the server-lifecycle core of an editor language-client
package: the `ServerManager` (server registry, path-based routing, pending
starts, restart limiting, stop/exit teardown, watched-file routing) and the
`LanguageClientConnection` connectivity state.

Paths are modelled over the POSIX separator; Node's `path.join` / `path.sep`
(external library functions used by `ServerManager.normalizePath`) are
modelled after Node's documented `path.posix` semantics.
-/

namespace LspCore

/-- The platform path separator (POSIX model of Node's `path.sep`). -/
def sepChar : Char := '/'

/-- Model of JavaScript `s.startsWith(pre)` for strings. -/
def strStartsWith (s pre : String) : Bool := pre.data.isPrefixOf s.data

/-- Model of JavaScript `s.endsWith(path.sep)` over a character list. -/
def endsWithSep (p : List Char) : Bool :=
  match p.getLast? with
  | some c => c == sepChar
  | none => false

/-- `true` iff the list starts with the separator (absolute POSIX path). -/
def startsWithSep (p : List Char) : Bool :=
  match p with
  | c :: _ => c == sepChar
  | [] => false

/-- Split a character list on the separator; model of splitting a POSIX path
into its `/`-separated segments, as Node's `normalizeString` walk does. -/
def splitOnSep : List Char → List (List Char)
  | [] => [[]]
  | c :: rest =>
    if c == sepChar then [] :: splitOnSep rest
    else
      match splitOnSep rest with
      | [] => [[c]]
      | s :: ss => (c :: s) :: ss

/-- One segment step of Node's `normalizeString`: empty and `.` segments are
dropped, `..` pops the previous kept segment (or is kept itself when above
the root is allowed), other segments are kept. -/
def normSegStep (allowAboveRoot : Bool) (stack : List (List Char)) (seg : List Char) :
    List (List Char) :=
  if seg = [] ∨ seg = ['.'] then stack
  else if seg = ['.', '.'] then
    if stack ≠ [] ∧ stack.getLast? ≠ some ['.', '.'] then stack.dropLast
    else if allowAboveRoot then stack ++ [seg] else stack
  else stack ++ [seg]

/-- The segment pass of Node's `normalizeString`. -/
def normalizeSegs (allowAboveRoot : Bool) (segs : List (List Char)) : List (List Char) :=
  segs.foldl (normSegStep allowAboveRoot) []

/-- The resolved inner segments of a path: Node's `normalizeString` output,
re-joined with the separator. -/
def normCore (p : List Char) : List Char :=
  List.intercalate [sepChar] (normalizeSegs (!startsWithSep p) (splitOnSep p))

/-- Model of Node's `path.posix.normalize`: resolve `.`/`..`, collapse
separator runs, keep a leading separator for absolute paths and preserve a
trailing separator. -/
def posixNormalize (p : List Char) : List Char :=
  if p = [] then ['.']
  else
    if normCore p = [] then
      if startsWithSep p then [sepChar]
      else if endsWithSep p then ['.', sepChar] else ['.']
    else
      if startsWithSep p then
        sepChar :: (if endsWithSep p then normCore p ++ [sepChar] else normCore p)
      else
        (if endsWithSep p then normCore p ++ [sepChar] else normCore p)

/-- Model of Node's `path.posix.join(a, b)`: zero-length parts are skipped,
the rest are joined with the separator and the join is normalized. -/
def posixJoin (a b : List Char) : List Char :=
  let joined := if a = [] then b else if b = [] then a else a ++ sepChar :: b
  if joined = [] then ['.'] else posixNormalize joined

/-- `ServerManager.normalizePath` over character lists: append a separator
via `path.join(projectPath, path.sep)` unless one is already trailing. -/
def normalizePathCL (p : List Char) : List Char :=
  if endsWithSep p then p else posixJoin p [sepChar]

/-- `ServerManager.normalizePath`. -/
def normalizePath (p : String) : String := String.mk (normalizePathCL p.data)

/-- `ServerManager.updateNormalizedProjectPaths`, applied to the project
directory paths reported by the host. -/
def updateNormalizedProjectPaths (dirs : List String) : List String :=
  dirs.map normalizePath

/-- `ServerManager.determineProjectPath`: the file path of the session is
matched against the normalized roots with `find`, i.e. the first root in
registration order that is a prefix wins; unsaved files have no path. -/
def determineProjectPath (roots : List String) (filePath : Option String) : Option String :=
  match filePath with
  | none => none
  | some fp => roots.find? (fun d => strStartsWith fp d)

/-- Written after the words of the specification (§3, Project Root Set):
resolution by longest-applicable-prefix match among the registered roots.
Stated only to be compared against `determineProjectPath`. -/
def longestPrefixRoot (roots : List String) (fp : String) : Option String :=
  (roots.filter (fun d => strStartsWith fp d)).foldl
    (fun acc d =>
      match acc with
      | none => some d
      | some b => if b.length < d.length then some d else some b) none

theorem endsWithSep_concat (l : List Char) : endsWithSep (l ++ [sepChar]) = true := by
  simp [endsWithSep, List.getLast?_concat]

theorem endsWithSep_cons_concat (c : Char) (l : List Char) :
    endsWithSep (c :: (l ++ [sepChar])) = true := by
  have h : c :: (l ++ [sepChar]) = (c :: l) ++ [sepChar] := by simp
  rw [h]
  exact endsWithSep_concat _

theorem posixNormalize_trailing (p : List Char) (hne : p ≠ [])
    (htr : endsWithSep p = true) : endsWithSep (posixNormalize p) = true := by
  unfold posixNormalize
  rw [if_neg hne]
  by_cases hcore : normCore p = []
  · rw [if_pos hcore]
    by_cases habs : startsWithSep p = true
    · rw [if_pos habs]; decide
    · rw [if_neg habs, if_pos htr]; decide
  · rw [if_neg hcore, htr]
    by_cases habs : startsWithSep p = true
    · rw [if_pos habs, if_pos rfl]
      exact endsWithSep_cons_concat _ _
    · rw [if_neg habs, if_pos rfl]
      exact endsWithSep_concat _

theorem normalizePathCL_endsWithSep (p : List Char) :
    endsWithSep (normalizePathCL p) = true := by
  unfold normalizePathCL
  by_cases h : endsWithSep p = true
  · rw [if_pos h]; exact h
  · rw [if_neg h]
    unfold posixJoin
    by_cases hp : p = []
    · rw [if_pos hp]
      decide
    · have hne : ¬([sepChar] = ([] : List Char)) := by simp
      rw [if_neg hp, if_neg hne]
      have hjn : p ++ sepChar :: [sepChar] ≠ [] := by simp
      rw [if_neg hjn]
      refine posixNormalize_trailing _ hjn ?_
      have hj : p ++ sepChar :: [sepChar] = (p ++ [sepChar]) ++ [sepChar] := by simp
      rw [hj]
      exact endsWithSep_concat _

theorem normalizePathCL_fixed (q : List Char) (h : endsWithSep q = true) :
    normalizePathCL q = q := by
  unfold normalizePathCL
  rw [if_pos h]

theorem normalizePathCL_idem (p : List Char) :
    normalizePathCL (normalizePathCL p) = normalizePathCL p :=
  normalizePathCL_fixed _ (normalizePathCL_endsWithSep p)

/-! ## The server-manager data model -/

/-- The observable behaviour of a server's `LanguageClientConnection` as the
manager's stop/exit paths consult it: whether it reports connected, whether
the awaited `shutdown` request rejects, and whether the polite
`exit`/`dispose` pair throws. -/
structure ConnFlags where
  isConnected : Bool
  shutdownThrows : Bool
  politeThrows : Bool
  deriving DecidableEq, Repr

/-- `ActiveServer`: identity (`sid` stands for the object identity and the
process id), the owning project path, and its connection. The capability set
and the disposable bundle carry no behaviour the claims touch beyond the
`disposedBundle` effect recorded below. -/
structure ActiveServer where
  sid : Nat
  projectPath : String
  conn : ConnFlags
  deriving DecidableEq, Repr

/-- An editor session as the manager consumes it: its identity, its file path
(`none` for never-saved buffers) and the value of the injected
`_startForEditor` eligibility predicate on it. -/
structure Editor where
  eid : Nat
  filePath : Option String
  eligible : Bool
  deriving DecidableEq, Repr

/-- State of one `getServer` caller between its suspension points. -/
inductive ThreadState where
  | notStarted (ed : Editor) (shouldStart : Bool)
  | awaitingStart (pid : Nat)
  | done (res : Option ActiveServer)
  | failed
  deriving DecidableEq, Repr

/-- The start-related state of `ServerManager`: the active registry, the
`_startingServerPromises` map (path to promise identity), the in-flight
`getServer` callers, the log of `_startServer` invocations (path and the
promise each produced) and a fresh-promise counter. -/
structure MState where
  activeServers : List ActiveServer
  startingServerPromises : List (String × Nat)
  threads : List (Nat × ThreadState)
  startCalls : List (String × Nat)
  nextPid : Nat
  deriving DecidableEq, Repr

/-- `Map.get` on the pending-start table. -/
def pendingLookup (pending : List (String × Nat)) (p : String) : Option Nat :=
  (pending.find? (fun q => q.1 == p)).map Prod.snd

def threadLookup (ts : List (Nat × ThreadState)) (tid : Nat) : Option ThreadState :=
  (ts.find? (fun q => q.1 == tid)).map Prod.snd

def setThread (ts : List (Nat × ThreadState)) (tid : Nat) (st : ThreadState) :
    List (Nat × ThreadState) :=
  match ts with
  | [] => []
  | q :: rest => (if q.1 == tid then (q.1, st) else q) :: setThread rest tid st

/-- Resolution of the promise with identity `pid` reaches every caller that
awaits it; each such caller continues with the same result `res`. -/
def wakeThreads (ts : List (Nat × ThreadState)) (pid : Nat) (res : ThreadState) :
    List (Nat × ThreadState) :=
  match ts with
  | [] => []
  | q :: rest =>
    (if q.2 == ThreadState.awaitingStart pid then (q.1, res) else q) :: wakeThreads rest pid res

/-- The four ways the synchronous part of `getServer` can conclude. -/
inductive GetServerOutcome where
  | noServer
  | existing (srv : ActiveServer)
  | awaitPending (pid : Nat)
  | startNew (p : String)
  deriving DecidableEq, Repr

/-- The atomic decision segment of `ServerManager.getServer` (no suspension
point occurs between its first line and either its return or the registration
performed by `startServer`): determine the project path; prefer a live entry
of the active registry; else join a pending start; else start when requested
and the editor is eligible. -/
def getServerDecision (roots : List String) (active : List ActiveServer)
    (pending : List (String × Nat)) (ed : Editor) (shouldStart : Bool) : GetServerOutcome :=
  match determineProjectPath roots ed.filePath with
  | none => .noServer
  | some p =>
    match active.find? (fun a => p == a.projectPath) with
    | some srv => .existing srv
    | none =>
      match pendingLookup pending p with
      | some pid => .awaitPending pid
      | none => if shouldStart && ed.eligible then .startNew p else .noServer

/-! ## Start serialization: the small-step model

`getServer`/`startServer` suspend only at the `await` of a starting promise:
everything from the path determination through the `set` on
`_startingServerPromises` is one atomic segment. A step is such a segment,
or the continuation run when a starting promise settles, or the synchronous
registry removal with which `stopServer` begins. -/

/-- Effect of one complete synchronous run of `getServer` for the caller
`tid`, including, on the start path, the synchronous head of `startServer`
(`_startServer` invocation and pending-entry registration). -/
def applyGetServer (roots : List String) (s : MState) (tid : Nat) (ed : Editor)
    (b : Bool) : MState :=
  match getServerDecision roots s.activeServers s.startingServerPromises ed b with
  | .noServer => { s with threads := setThread s.threads tid (.done none) }
  | .existing srv => { s with threads := setThread s.threads tid (.done (some srv)) }
  | .awaitPending pid => { s with threads := setThread s.threads tid (.awaitingStart pid) }
  | .startNew p =>
      { s with startingServerPromises := (p, s.nextPid) :: s.startingServerPromises,
               startCalls := s.startCalls ++ [(p, s.nextPid)],
               threads := setThread s.threads tid (.awaitingStart s.nextPid),
               nextPid := s.nextPid + 1 }

/-- Continuation of `startServer` when the injected start function resolves
with `srv`: push onto the active registry, delete the pending entry (keyed by
path), and hand `srv` to every caller awaiting this promise. -/
def applyResolveStart (s : MState) (path : String) (pid : Nat) (srv : ActiveServer) :
    MState :=
  { s with activeServers := s.activeServers ++ [srv],
           startingServerPromises := s.startingServerPromises.filter (fun q => !(q.1 == path)),
           threads := wakeThreads s.threads pid (.done (some srv)) }

/-- Continuation of `startServer` when the injected start function rejects:
delete the pending entry and propagate the rejection to every awaiting
caller. -/
def applyRejectStart (s : MState) (path : String) (pid : Nat) : MState :=
  { s with startingServerPromises := s.startingServerPromises.filter (fun q => !(q.1 == path)),
           threads := wakeThreads s.threads pid .failed }

/-- The synchronous head of `stopServer`: the instance leaves the active
registry before any suspension. -/
def applyStopSync (s : MState) (srv : ActiveServer) : MState :=
  { s with activeServers := s.activeServers.erase srv }

/-- The interleaving-level transitions of the start subsystem. -/
inductive Step (roots : List String) : MState → MState → Prop where
  | getServerCall (s : MState) (tid : Nat) (ed : Editor) (b : Bool)
      (h : threadLookup s.threads tid = some (.notStarted ed b)) :
      Step roots s (applyGetServer roots s tid ed b)
  | resolveStart (s : MState) (path : String) (pid : Nat) (srv : ActiveServer)
      (hmem : (path, pid) ∈ s.startingServerPromises) (hpath : srv.projectPath = path) :
      Step roots s (applyResolveStart s path pid srv)
  | rejectStart (s : MState) (path : String) (pid : Nat)
      (hmem : (path, pid) ∈ s.startingServerPromises) :
      Step roots s (applyRejectStart s path pid)
  | stopSync (s : MState) (srv : ActiveServer) (h : srv ∈ s.activeServers) :
      Step roots s (applyStopSync s srv)

/-- A freshly constructed manager with a population of `getServer` callers
that have not yet run. -/
def initState (ts : List (Nat × Editor × Bool)) : MState :=
  { activeServers := [], startingServerPromises := [],
    threads := ts.map (fun t => (t.1, ThreadState.notStarted t.2.1 t.2.2)),
    startCalls := [], nextPid := 0 }

def Reach (roots : List String) (s0 s : MState) : Prop :=
  Relation.ReflTransGen (Step roots) s0 s

/-- The manager's start-subsystem invariant: one pending start per path, one
active instance per path, no path both active and pending, promise
identities are fresh, and no promise was produced by two `_startServer`
invocations. -/
def Inv (s : MState) : Prop :=
  (s.startingServerPromises.map Prod.fst).Nodup ∧
  (s.activeServers.map ActiveServer.projectPath).Nodup ∧
  (∀ q ∈ s.startingServerPromises, q.1 ∉ s.activeServers.map ActiveServer.projectPath) ∧
  (∀ q ∈ s.startingServerPromises, q.2 < s.nextPid) ∧
  (∀ c ∈ s.startCalls, c.2 < s.nextPid) ∧
  (s.startCalls.map Prod.snd).Nodup

theorem getServerDecision_startNew {roots : List String} {active : List ActiveServer}
    {pending : List (String × Nat)} {ed : Editor} {b : Bool} {p : String}
    (h : getServerDecision roots active pending ed b = .startNew p) :
    determineProjectPath roots ed.filePath = some p ∧
    active.find? (fun a => p == a.projectPath) = none ∧
    pendingLookup pending p = none := by
  unfold getServerDecision at h
  split at h
  · cases h
  next p' hd =>
    split at h
    · cases h
    next hf =>
      split at h
      · cases h
      next hp =>
        split at h
        · cases h
          exact ⟨hd, hf, hp⟩
        · cases h

theorem pendingLookup_none_not_mem {pending : List (String × Nat)} {p : String}
    (h : pendingLookup pending p = none) : p ∉ pending.map Prod.fst := by
  intro hmem
  rcases List.mem_map.mp hmem with ⟨q, hq, hq1⟩
  have hfind : pending.find? (fun q => q.1 == p) = none := by
    unfold pendingLookup at h
    cases hf : pending.find? (fun q => q.1 == p) with
    | none => rfl
    | some v => rw [hf] at h; cases h
  have := List.find?_eq_none.mp hfind q hq
  simp [hq1] at this

theorem find?_path_none_not_mem {active : List ActiveServer} {p : String}
    (h : active.find? (fun a => p == a.projectPath) = none) :
    p ∉ active.map ActiveServer.projectPath := by
  intro hmem
  rcases List.mem_map.mp hmem with ⟨a, ha, ha1⟩
  have := List.find?_eq_none.mp h a ha
  simp [ha1] at this

theorem inv_init (ts : List (Nat × Editor × Bool)) : Inv (initState ts) := by
  refine ⟨?_, ?_, ?_, ?_, ?_, ?_⟩ <;> simp [initState]

theorem inv_preserved {roots : List String} {s s' : MState}
    (hstep : Step roots s s') (hinv : Inv s) : Inv s' := by
  obtain ⟨h1, h2, h3, h4, h5, h6⟩ := hinv
  cases hstep with
  | getServerCall tid ed b h =>
    cases hdec : getServerDecision roots s.activeServers s.startingServerPromises ed b with
    | noServer => exact ⟨by simpa [applyGetServer, hdec] using h1,
        by simpa [applyGetServer, hdec] using h2, by simpa [applyGetServer, hdec] using h3,
        by simpa [applyGetServer, hdec] using h4, by simpa [applyGetServer, hdec] using h5,
        by simpa [applyGetServer, hdec] using h6⟩
    | existing srv => exact ⟨by simpa [applyGetServer, hdec] using h1,
        by simpa [applyGetServer, hdec] using h2, by simpa [applyGetServer, hdec] using h3,
        by simpa [applyGetServer, hdec] using h4, by simpa [applyGetServer, hdec] using h5,
        by simpa [applyGetServer, hdec] using h6⟩
    | awaitPending pid => exact ⟨by simpa [applyGetServer, hdec] using h1,
        by simpa [applyGetServer, hdec] using h2, by simpa [applyGetServer, hdec] using h3,
        by simpa [applyGetServer, hdec] using h4, by simpa [applyGetServer, hdec] using h5,
        by simpa [applyGetServer, hdec] using h6⟩
    | startNew p =>
      obtain ⟨hdp, hfind, hpend⟩ := getServerDecision_startNew hdec
      have hpnotpend : p ∉ s.startingServerPromises.map Prod.fst :=
        pendingLookup_none_not_mem hpend
      have hpnotact : p ∉ s.activeServers.map ActiveServer.projectPath :=
        find?_path_none_not_mem hfind
      refine ⟨?_, ?_, ?_, ?_, ?_, ?_⟩
      · simp only [applyGetServer, hdec, List.map_cons]
        exact List.nodup_cons.mpr ⟨hpnotpend, h1⟩
      · simpa [applyGetServer, hdec] using h2
      · intro q hq
        simp only [applyGetServer, hdec, List.mem_cons] at hq
        rcases hq with hq | hq
        · subst hq
          simpa [applyGetServer, hdec] using hpnotact
        · simpa [applyGetServer, hdec] using h3 q hq
      · intro q hq
        simp only [applyGetServer, hdec, List.mem_cons] at hq
        rcases hq with hq | hq
        · subst hq
          simp [applyGetServer, hdec]
        · simp only [applyGetServer, hdec]
          exact Nat.lt_succ_of_lt (h4 q hq)
      · intro c hc
        simp only [applyGetServer, hdec, List.mem_append, List.mem_singleton] at hc
        rcases hc with hc | hc
        · simp only [applyGetServer, hdec]
          exact Nat.lt_succ_of_lt (h5 c hc)
        · subst hc
          simp [applyGetServer, hdec]
      · have hfresh : (s.nextPid : Nat) ∉ s.startCalls.map Prod.snd := by
          intro hmem
          rcases List.mem_map.mp hmem with ⟨c, hc, hc2⟩
          exact absurd (hc2 ▸ h5 c hc) (lt_irrefl _)
        simp only [applyGetServer, hdec, List.map_append, List.map_cons, List.map_nil]
        rw [List.nodup_append_comm]
        simp only [List.singleton_append]
        exact List.nodup_cons.mpr ⟨hfresh, h6⟩
  | resolveStart path pid srv hmem hpath =>
    have hpnotact : path ∉ s.activeServers.map ActiveServer.projectPath :=
      h3 (path, pid) hmem
    refine ⟨?_, ?_, ?_, ?_, ?_, ?_⟩
    · have hsubp : List.Sublist
          ((s.startingServerPromises.filter (fun q => !(q.1 == path))).map Prod.fst)
          (s.startingServerPromises.map Prod.fst) :=
        List.Sublist.map _ (List.filter_sublist _)
      exact h1.sublist hsubp
    · have : (s.activeServers.map ActiveServer.projectPath).Nodup ∧
          srv.projectPath ∉ s.activeServers.map ActiveServer.projectPath :=
        ⟨h2, hpath ▸ hpnotact⟩
      simpa [applyResolveStart, List.nodup_append] using this
    · intro q hq
      simp only [applyResolveStart, List.mem_filter] at hq
      obtain ⟨hqmem, hqne⟩ := hq
      have hqne' : q.1 ≠ path := by simpa using hqne
      have hold := h3 q hqmem
      simp only [applyResolveStart, List.map_append, List.mem_append]
      rintro (hc | hc)
      · exact hold hc
      · simp only [List.map_cons, List.map_nil, List.mem_singleton] at hc
        exact hqne' (hc.trans hpath)
    · intro q hq
      simp only [applyResolveStart, List.mem_filter] at hq
      exact h4 q hq.1
    · intro c hc
      exact h5 c (by simpa [applyResolveStart] using hc)
    · simpa [applyResolveStart] using h6
  | rejectStart path pid hmem =>
    refine ⟨?_, ?_, ?_, ?_, ?_, ?_⟩
    · have hsubp : List.Sublist
          ((s.startingServerPromises.filter (fun q => !(q.1 == path))).map Prod.fst)
          (s.startingServerPromises.map Prod.fst) :=
        List.Sublist.map _ (List.filter_sublist _)
      exact h1.sublist hsubp
    · simpa [applyRejectStart] using h2
    · intro q hq
      simp only [applyRejectStart, List.mem_filter] at hq
      simpa [applyRejectStart] using h3 q hq.1
    · intro q hq
      simp only [applyRejectStart, List.mem_filter] at hq
      exact h4 q hq.1
    · intro c hc
      exact h5 c (by simpa [applyRejectStart] using hc)
    · simpa [applyRejectStart] using h6
  | stopSync srv h =>
    have hsub : List.Sublist ((s.activeServers.erase srv).map ActiveServer.projectPath)
        (s.activeServers.map ActiveServer.projectPath) :=
      List.Sublist.map _ (List.erase_sublist srv s.activeServers)
    refine ⟨?_, ?_, ?_, ?_, ?_, ?_⟩
    · simpa [applyStopSync] using h1
    · exact h2.sublist hsub
    · intro q hq
      have := h3 q (by simpa [applyStopSync] using hq)
      exact fun hc => this (hsub.mem hc)
    · intro q hq
      exact h4 q (by simpa [applyStopSync] using hq)
    · intro c hc
      exact h5 c (by simpa [applyStopSync] using hc)
    · simpa [applyStopSync] using h6

theorem reach_inv {roots : List String} {ts : List (Nat × Editor × Bool)} {s : MState}
    (h : Reach roots (initState ts) s) : Inv s := by
  induction h with
  | refl => exact inv_init ts
  | tail _ hstep ih => exact inv_preserved hstep ih

theorem threadLookup_setThread {ts : List (Nat × ThreadState)} {tid : Nat}
    {x : ThreadState} (st : ThreadState) (h : threadLookup ts tid = some x) :
    threadLookup (setThread ts tid st) tid = some st := by
  induction ts with
  | nil => simp [threadLookup] at h
  | cons q rest ih =>
    by_cases hk : (q.1 == tid) = true
    · have hset : setThread (q :: rest) tid st = (q.1, st) :: setThread rest tid st := by
        simp only [setThread, if_pos hk]
      rw [hset]
      unfold threadLookup
      rw [List.find?_cons_of_pos]
      · rfl
      · exact hk
    · have hset : setThread (q :: rest) tid st = q :: setThread rest tid st := by
        simp only [setThread, if_neg hk]
      have hh : threadLookup rest tid = some x := by
        unfold threadLookup at h
        rw [List.find?_cons_of_neg] at h
        · exact h
        · exact hk
      rw [hset]
      unfold threadLookup
      rw [List.find?_cons_of_neg]
      · exact ih hh
      · exact hk

theorem threadLookup_wakeThreads {ts : List (Nat × ThreadState)} {tid pid : Nat}
    (res : ThreadState) (h : threadLookup ts tid = some (.awaitingStart pid)) :
    threadLookup (wakeThreads ts pid res) tid = some res := by
  induction ts with
  | nil => simp [threadLookup] at h
  | cons q rest ih =>
    by_cases hk : (q.1 == tid) = true
    · have hq2 : q.2 = ThreadState.awaitingStart pid := by
        unfold threadLookup at h
        rw [List.find?_cons_of_pos] at h
        · simpa using h
        · exact hk
      have hcond : (q.2 == ThreadState.awaitingStart pid) = true := by
        rw [hq2]; exact beq_self_eq_true _
      have hwk : wakeThreads (q :: rest) pid res = (q.1, res) :: wakeThreads rest pid res := by
        simp only [wakeThreads, if_pos hcond]
      rw [hwk]
      unfold threadLookup
      rw [List.find?_cons_of_pos]
      · rfl
      · exact hk
    · have hh : threadLookup rest tid = some (.awaitingStart pid) := by
        unfold threadLookup at h
        rw [List.find?_cons_of_neg] at h
        · exact h
        · exact hk
      by_cases hw : (q.2 == ThreadState.awaitingStart pid) = true
      · have hwk : wakeThreads (q :: rest) pid res = (q.1, res) :: wakeThreads rest pid res := by
          simp only [wakeThreads, if_pos hw]
        rw [hwk]
        unfold threadLookup
        rw [List.find?_cons_of_neg]
        · exact ih hh
        · exact hk
      · have hwk : wakeThreads (q :: rest) pid res = q :: wakeThreads rest pid res := by
          simp only [wakeThreads, if_neg hw]
        rw [hwk]
        unfold threadLookup
        rw [List.find?_cons_of_neg]
        · exact ih hh
        · exact hk

theorem pendingLookup_some_mem {pending : List (String × Nat)} {p : String} {pid : Nat}
    (h : pendingLookup pending p = some pid) : (p, pid) ∈ pending := by
  unfold pendingLookup at h
  cases hf : pending.find? (fun q => q.1 == p) with
  | none => rw [hf] at h; cases h
  | some q =>
    rw [hf] at h
    have hq := List.mem_of_find?_eq_some hf
    have hpred := List.find?_some hf
    have h1 : q.1 = p := by
      have hb : (q.1 == p) = true := hpred
      exact beq_iff_eq.mp hb
    have h2 : q.2 = pid := by simpa using h
    have hqe : q = (p, pid) := Prod.ext_iff.mpr ⟨h1, h2⟩
    exact hqe ▸ hq

theorem find?_path_none_of_not_mem {active : List ActiveServer} {p : String}
    (h : p ∉ active.map ActiveServer.projectPath) :
    active.find? (fun a => p == a.projectPath) = none := by
  refine List.find?_eq_none.mpr ?_
  intro a ha hpa
  exact h (List.mem_map.mpr ⟨a, ha, (beq_iff_eq.mp hpa).symm⟩)

/-- C1: at most one active instance and at most one pending start per project
path in every reachable state; a `getServer` run that finds a start in flight
for its path performs no new `_startServer` invocation and joins that very
promise; when a start resolves, every caller awaiting its promise receives
the same `ActiveServer`; and no promise identity is ever produced by two
`_startServer` invocations (each start is invoked exactly once). -/
theorem startSerialization_per_path (roots : List String)
    (ts : List (Nat × Editor × Bool)) (s : MState)
    (h : Reach roots (initState ts) s) :
    ((s.startingServerPromises.map Prod.fst).Nodup ∧
      (s.activeServers.map ActiveServer.projectPath).Nodup) ∧
    (s.startCalls.map Prod.snd).Nodup ∧
    (∀ tid ed b p pid,
      threadLookup s.threads tid = some (.notStarted ed b) →
      determineProjectPath roots ed.filePath = some p →
      pendingLookup s.startingServerPromises p = some pid →
      (applyGetServer roots s tid ed b).startCalls = s.startCalls ∧
      threadLookup (applyGetServer roots s tid ed b).threads tid =
        some (.awaitingStart pid)) ∧
    (∀ path pid srv tid,
      threadLookup s.threads tid = some (.awaitingStart pid) →
      threadLookup (applyResolveStart s path pid srv).threads tid =
        some (.done (some srv))) := by
  obtain ⟨h1, h2, h3, h4, h5, h6⟩ := reach_inv h
  refine ⟨⟨h1, h2⟩, h6, ?_, ?_⟩
  · intro tid ed b p pid hth hdp hpend
    have hpmem : (p, pid) ∈ s.startingServerPromises := pendingLookup_some_mem hpend
    have hfind : s.activeServers.find? (fun a => p == a.projectPath) = none :=
      find?_path_none_of_not_mem (h3 (p, pid) hpmem)
    have hdec : getServerDecision roots s.activeServers s.startingServerPromises ed b =
        .awaitPending pid := by
      simp [getServerDecision, hdp, hfind, hpend]
    constructor
    · simp [applyGetServer, hdec]
    · simp only [applyGetServer, hdec]
      exact threadLookup_setThread _ hth
  · intro path pid srv tid hth
    simp only [applyResolveStart]
    exact threadLookup_wakeThreads _ hth

/-- An eligible editor session inside the sole registered root. -/
def edA : Editor := { eid := 0, filePath := some "/a/x.txt", eligible := true }

/-- The state after one `getServer` run of `edA`: a start for `"/a/"` is in
flight. -/
def c1WitState : MState := applyGetServer ["/a/"] (initState [(0, edA, true)]) 0 edA true

theorem c1WitState_reach : Reach ["/a/"] (initState [(0, edA, true)]) c1WitState :=
  Relation.ReflTransGen.single
    (Step.getServerCall (initState [(0, edA, true)]) 0 edA true (by decide))

theorem startSerialization_per_path_witness :
    ((c1WitState.startingServerPromises.map Prod.fst).Nodup ∧
      (c1WitState.activeServers.map ActiveServer.projectPath).Nodup) ∧
    (c1WitState.startCalls.map Prod.snd).Nodup ∧
    (∀ tid ed b p pid,
      threadLookup c1WitState.threads tid = some (.notStarted ed b) →
      determineProjectPath ["/a/"] ed.filePath = some p →
      pendingLookup c1WitState.startingServerPromises p = some pid →
      (applyGetServer ["/a/"] c1WitState tid ed b).startCalls = c1WitState.startCalls ∧
      threadLookup (applyGetServer ["/a/"] c1WitState tid ed b).threads tid =
        some (.awaitingStart pid)) ∧
    (∀ path pid srv tid,
      threadLookup c1WitState.threads tid = some (.awaitingStart pid) →
      threadLookup (applyResolveStart c1WitState path pid srv).threads tid =
        some (.done (some srv))) :=
  startSerialization_per_path ["/a/"] [(0, edA, true)] c1WitState c1WitState_reach

/-- C6: when the injected start function rejects, the `startServer`
continuation removes the pending entry for the path and propagates the
rejection to every awaiting caller; the active registry is untouched and the
path ends with neither an active instance nor a pending start (state
`absent`), so a later start for it may be retried. -/
theorem startFailure_path_absent (roots : List String)
    (ts : List (Nat × Editor × Bool)) (s : MState) (path : String) (pid : Nat)
    (h : Reach roots (initState ts) s)
    (hmem : (path, pid) ∈ s.startingServerPromises) :
    (applyRejectStart s path pid).activeServers = s.activeServers ∧
    path ∉ (applyRejectStart s path pid).startingServerPromises.map Prod.fst ∧
    path ∉ (applyRejectStart s path pid).activeServers.map ActiveServer.projectPath ∧
    (∀ tid, threadLookup s.threads tid = some (.awaitingStart pid) →
      threadLookup (applyRejectStart s path pid).threads tid = some .failed) := by
  obtain ⟨h1, h2, h3, h4, h5, h6⟩ := reach_inv h
  refine ⟨rfl, ?_, ?_, ?_⟩
  · intro hmm
    rcases List.mem_map.mp hmm with ⟨q, hq, hq1⟩
    simp only [applyRejectStart, List.mem_filter] at hq
    have : (q.1 == path) = false := by simpa using hq.2
    rw [hq1] at this
    simp at this
  · simpa [applyRejectStart] using h3 (path, pid) hmem
  · intro tid hth
    simp only [applyRejectStart]
    exact threadLookup_wakeThreads _ hth

theorem startFailure_path_absent_witness :
    (applyRejectStart c1WitState "/a/" 0).activeServers = c1WitState.activeServers ∧
    "/a/" ∉ (applyRejectStart c1WitState "/a/" 0).startingServerPromises.map Prod.fst ∧
    "/a/" ∉ (applyRejectStart c1WitState "/a/" 0).activeServers.map
      ActiveServer.projectPath ∧
    (∀ tid, threadLookup c1WitState.threads tid = some (.awaitingStart 0) →
      threadLookup (applyRejectStart c1WitState "/a/" 0).threads tid = some .failed) :=
  startFailure_path_absent ["/a/"] [(0, edA, true)] c1WitState "/a/" 0
    c1WitState_reach (by decide)

/-! ## Session resolution (C2) -/

/-- A clean connection for concrete examples. -/
def cleanConn : ConnFlags := { isConnected := true, shutdownThrows := false, politeThrows := false }

def srvShortRoot : ActiveServer := { sid := 1, projectPath := "/a/", conn := cleanConn }

def srvLongRoot : ActiveServer := { sid := 2, projectPath := "/a/b/", conn := cleanConn }

/-- The session used to separate first-match from longest-match resolution:
its file lies under both registered roots. -/
def edNested : Editor := { eid := 3, filePath := some "/a/b/c.txt", eligible := true }

/-- C2, counterexample: with the nested roots `"/a/"` then `"/a/b/"` both
registered and both owning an active instance, the longest applicable prefix
is `"/a/b/"`, but `determineProjectPath` resolves to `"/a/"` (the first match
in registration order) and `getServer` returns the instance for `"/a/"` —
first-match and longest-prefix-match resolution are not equivalent, and the
code implements the former. -/
theorem getServer_longest_prefix_counterexample :
    longestPrefixRoot ["/a/", "/a/b/"] "/a/b/c.txt" = some "/a/b/" ∧
    determineProjectPath ["/a/", "/a/b/"] (some "/a/b/c.txt") = some "/a/" ∧
    getServerDecision ["/a/", "/a/b/"] [srvShortRoot, srvLongRoot] [] edNested false =
      .existing srvShortRoot ∧
    srvShortRoot.projectPath ≠ "/a/b/" := by
  refine ⟨by decide, by decide, by decide, by decide⟩

/-- C2, as amended: `getServer` resolves a session to `none` when it has no
file path or no normalized registered root is a prefix of that path;
otherwise to the first root in registration order whose normalized form is a
prefix of the file path (which need not be the longest one), and the active
instance registered for that root, when one exists, is the result. -/
theorem getServer_resolution (roots : List String) (active : List ActiveServer)
    (pending : List (String × Nat)) (ed : Editor) (b : Bool) :
    (ed.filePath = none → getServerDecision roots active pending ed b = .noServer) ∧
    (∀ fp, ed.filePath = some fp →
      roots.find? (fun d => strStartsWith fp d) = none →
      getServerDecision roots active pending ed b = .noServer) ∧
    (∀ fp root srv, ed.filePath = some fp →
      roots.find? (fun d => strStartsWith fp d) = some root →
      active.find? (fun a => root == a.projectPath) = some srv →
      getServerDecision roots active pending ed b = .existing srv) := by
  refine ⟨?_, ?_, ?_⟩
  · intro hfp
    simp [getServerDecision, determineProjectPath, hfp]
  · intro fp hfp hroot
    simp [getServerDecision, determineProjectPath, hfp, hroot]
  · intro fp root srv hfp hroot hsrv
    simp [getServerDecision, determineProjectPath, hfp, hroot, hsrv]

theorem getServer_resolution_witness :
    ((edNested.filePath = none →
      getServerDecision ["/a/", "/a/b/"] [srvShortRoot, srvLongRoot] [] edNested false =
        .noServer) ∧
    (∀ fp, edNested.filePath = some fp →
      List.find? (fun d => strStartsWith fp d) ["/a/", "/a/b/"] = none →
      getServerDecision ["/a/", "/a/b/"] [srvShortRoot, srvLongRoot] [] edNested false =
        .noServer) ∧
    (∀ fp root srv, edNested.filePath = some fp →
      List.find? (fun d => strStartsWith fp d) ["/a/", "/a/b/"] = some root →
      List.find? (fun a => root == a.projectPath) [srvShortRoot, srvLongRoot] = some srv →
      getServerDecision ["/a/", "/a/b/"] [srvShortRoot, srvLongRoot] [] edNested false =
        .existing srv)) ∧
    getServerDecision ["/a/", "/a/b/"] [srvShortRoot, srvLongRoot] [] edNested false =
      .existing srvShortRoot :=
  ⟨getServer_resolution ["/a/", "/a/b/"] [srvShortRoot, srvLongRoot] [] edNested false,
    (getServer_resolution ["/a/", "/a/b/"] [srvShortRoot, srvLongRoot] [] edNested
      false).2.2 "/a/b/c.txt" "/a/" srvShortRoot (by decide) (by decide) (by decide)⟩

/-! ## Restart limiting (C3) -/

/-- Three minutes in milliseconds: the decay window of a restart counter. -/
def restartWindowMs : Nat := 3 * 60 * 1000

/-- `ServerManager.hasServerReachedRestartLimit` for one fixed project path,
called at time `now` on that path's record (`none` when absent): when absent,
a record with zero restarts is created together with its one-shot decay
timer, due `restartWindowMs` later; the count is then pre-incremented and the
call reports whether it exceeds five. Later calls never extend the deadline
(the timer is only scheduled at creation). -/
def hasServerReachedRestartLimit (now : Nat) (c : Option (Nat × Nat)) :
    Bool × Option (Nat × Nat) :=
  match c with
  | none => (decide (0 + 1 > 5), some (0 + 1, now + restartWindowMs))
  | some (r, d) => (decide (r + 1 > 5), some (r + 1, d))

/-- The decay-timer callback: when its deadline is due it deletes the
record. -/
def restartTimerFire (now : Nat) (c : Option (Nat × Nat)) : Option (Nat × Nat) :=
  match c with
  | none => none
  | some (r, d) => if d ≤ now then none else some (r, d)

/-- `k` consecutive limit checks with no intervening timer fire, i.e. all
within one decay window. -/
def runRestartChecks (now : Nat) (k : Nat) (c : Option (Nat × Nat)) :
    List Bool × Option (Nat × Nat) :=
  match k with
  | 0 => ([], c)
  | Nat.succ k =>
    let r := hasServerReachedRestartLimit now c
    let rest := runRestartChecks now k r.2
    (r.1 :: rest.1, rest.2)

theorem runRestartChecks_some (now k : Nat) : ∀ r d : Nat,
    (runRestartChecks now k (some (r, d))).1 =
      (List.range k).map (fun i => decide (r + i + 1 > 5)) := by
  induction k with
  | zero => intro r d; rfl
  | succ k ih =>
    intro r d
    have h1 : (runRestartChecks now (k + 1) (some (r, d))).1 =
        decide (r + 1 > 5) :: (runRestartChecks now k (some (r + 1, d))).1 := rfl
    rw [h1, ih (r + 1) d, List.range_succ_eq_map, List.map_cons, List.map_map]
    simp only [Nat.add_zero]
    congr 1
    apply List.map_congr_left
    intro i _
    simp only [Function.comp_apply, Nat.succ_eq_add_one]
    have he : r + 1 + i + 1 = r + (i + 1) + 1 := by omega
    rw [he]

/-- C3: within one decay window the `i`-th check on a fixed project path
reports `i > 5` — `false` for the first five calls, `true` from the sixth
on; a check on an absent record creates it (with the pre-increment it is
attempt 1, deadline three minutes out) and reports `false`; checks never
extend the deadline; the decay timer is a no-op before its deadline and
deletes the record at it, after which the next check is again attempt 1. -/
theorem restartLimit_window (now k : Nat) :
    (runRestartChecks now k none).1 =
      (List.range k).map (fun i => decide (i + 1 > 5)) ∧
    hasServerReachedRestartLimit now none =
      (false, some (1, now + restartWindowMs)) ∧
    (∀ r d, (hasServerReachedRestartLimit now (some (r, d))).2 = some (r + 1, d)) ∧
    (∀ r d, now < d → restartTimerFire now (some (r, d)) = some (r, d)) ∧
    (∀ r d, d ≤ now → restartTimerFire now (some (r, d)) = none) ∧
    (hasServerReachedRestartLimit now none).1 = false := by
  refine ⟨?_, rfl, fun r d => rfl, ?_, ?_, rfl⟩
  · cases k with
    | zero => rfl
    | succ k =>
      have h1 : (runRestartChecks now (k + 1) none).1 =
          false :: (runRestartChecks now k (some (1, now + restartWindowMs))).1 := rfl
      rw [h1, runRestartChecks_some, List.range_succ_eq_map, List.map_cons, List.map_map]
      have h0 : decide ((0 : Nat) + 1 > 5) = false := by decide
      rw [h0]
      congr 1
      apply List.map_congr_left
      intro i _
      simp only [Function.comp_apply, Nat.succ_eq_add_one]
      have he : 1 + i + 1 = i + 1 + 1 := by omega
      rw [he]
  · intro r d h
    simp [restartTimerFire, Nat.not_le.mpr h]
  · intro r d h
    simp [restartTimerFire, h]

theorem restartLimit_window_witness :
    (runRestartChecks 0 7 none).1 =
      [false, false, false, false, false, true, true] ∧
    restartTimerFire 180000 (some (3, 180000)) = none := by
  constructor
  · rw [(restartLimit_window 0 7).1]
    decide
  · exact (restartLimit_window 180000 7).2.2.2.2.1 3 180000 (by decide)

/-! ## Stop, exit and restart (C4, C5, C8)

A sequential model of the teardown paths. Externally visible actions are
recorded in an ordered trace. `_reportBusyWhile` merely runs the wrapped
action, so it is transparent here. -/

/-- Externally visible effects of the teardown paths, in program order. -/
inductive Effect where
  | disposedBundle (sid : Nat)
  | shutdownSent (sid : Nat)
  | exitSent (sid : Nat)
  | connDisposed (sid : Nat)
  | procKilled (sid : Nat)
  deriving DecidableEq, Repr

/-- The manager state the stop/restart paths read and write: the active
registry, the stopping set, the editor-to-server map, the restart-counter
table (path, count, deadline), the effect trace, the subscription sets
created by `startListening` (`true` while observing, `false` once disposed)
and the `_isStarted` flag. -/
structure SeqState where
  activeServers : List ActiveServer
  stoppingServers : List ActiveServer
  editorToServer : List (Nat × ActiveServer)
  restartCounters : List (String × Nat × Nat)
  trace : List Effect
  subs : List Bool
  isStarted : Bool
  deriving DecidableEq, Repr

/-- `list.splice(list.indexOf(x), 1)`: removes the first occurrence when `x`
is present; otherwise `indexOf` yields `-1` and `splice(-1, 1)` removes the
last element. -/
def spliceRemove {α : Type} [DecidableEq α] (l : List α) (a : α) : List α :=
  if a ∈ l then l.erase a else l.dropLast

/-- `ServerManager.startListening`: when the manager does not believe itself
started it builds a fresh subscription set and subscribes — without ever
setting `_isStarted`, and without disposing any previous set. -/
def startListening (s : SeqState) : SeqState :=
  if !s.isStarted then { s with subs := s.subs ++ [true] } else s

/-- `ServerManager.stopListening`: disposes the current subscription set and
clears `_isStarted` — but only when `_isStarted` is set. -/
def stopListening (s : SeqState) : SeqState :=
  if s.isStarted then
    { s with subs := s.subs.dropLast ++ (if s.subs.isEmpty then [] else [false]),
             isStarted := false }
  else s

/-- Number of subscription sets still observing session events. -/
def activeSubs (s : SeqState) : Nat := s.subs.count true

/-- `ServerManager.exitServer`: under a `try`/`finally`, send `exit` and
dispose the connection when it still reports connected; the `finally` clause
kills the process in every case. The `Bool` records whether the polite path
threw (in which case the exception propagates after the kill). -/
def exitServer (s : SeqState) (srv : ActiveServer) : SeqState × Bool :=
  if srv.conn.isConnected then
    if srv.conn.politeThrows then
      ({ s with trace := s.trace ++ [Effect.procKilled srv.sid] }, true)
    else
      ({ s with trace := s.trace ++ [Effect.exitSent srv.sid, Effect.connDisposed srv.sid,
                                     Effect.procKilled srv.sid] }, false)
  else
    ({ s with trace := s.trace ++ [Effect.procKilled srv.sid] }, false)

/-- The synchronous head of `ServerManager.stopServer`, up to its first
suspension point (the `await` of `shutdown`): the instance leaves the active
registry immediately, joins the stopping set, and its bookkeeping bundle is
disposed. -/
def stopServerPhase1 (s : SeqState) (srv : ActiveServer) : SeqState :=
  { s with activeServers := spliceRemove s.activeServers srv,
           stoppingServers := s.stoppingServers ++ [srv],
           trace := s.trace ++ [Effect.disposedBundle srv.sid] }

/-- `ServerManager.stopServer`: phase 1, then `shutdown` when connected (its
rejection rejects the whole stop), removal of every editor mapping to this
instance, `exitServer`, and finally removal from the stopping set — skipped
when `exitServer` threw. The `Bool` records whether the returned promise
rejected. -/
def stopServer (s : SeqState) (srv : ActiveServer) : SeqState × Bool :=
  let s1 := stopServerPhase1 s srv
  if srv.conn.isConnected && srv.conn.shutdownThrows then (s1, true)
  else
    let s2 := if srv.conn.isConnected
              then { s1 with trace := s1.trace ++ [Effect.shutdownSent srv.sid] } else s1
    let s3 := { s2 with editorToServer := s2.editorToServer.filter (fun q => !(q.2 == srv)) }
    let r := exitServer s3 srv
    if r.2 then (r.1, true)
    else ({ r.1 with stoppingServers := spliceRemove r.1.stoppingServers srv }, false)

/-- `ServerManager.stopAllServers`: clear every restart counter (cancelling
its timer), then stop every active server; a single rejection rejects the
aggregate. -/
def stopAllServers (s : SeqState) : SeqState × Bool :=
  let s0 := { s with restartCounters := [] }
  s0.activeServers.foldl
    (fun acc srv =>
      let r := stopServer acc.1 srv
      (r.1, acc.2 || r.2)) (s0, false)

/-- `ServerManager.restartAllServers`: `stopListening`, stop all servers
(its rejection rejects the restart before the remaining lines run), reset the
editor map, `startListening`. -/
def restartAllServers (s : SeqState) : SeqState × Bool :=
  let s1 := stopListening s
  let r := stopAllServers s1
  if r.2 then (r.1, true)
  else
    let s3 := { r.1 with editorToServer := [] }
    (startListening s3, false)

theorem mapping_filter_ne {l : List (Nat × ActiveServer)} {e : Nat} {sv srv : ActiveServer}
    (h : (e, sv) ∈ l.filter (fun q => !(q.2 == srv))) : sv ≠ srv := by
  have h2 := (List.mem_filter.mp h).2
  simpa using h2

/-- C5: `exitServer` signals the process kill in every case: when the
connection reports connected and the polite path succeeds, the `exit`
notification and the connection disposal precede the kill; when the polite
path throws, the protected (`finally`) clause still performs the kill before
the exception propagates; when disconnected the kill is the sole effect. -/
theorem exitServer_always_kills (s : SeqState) (srv : ActiveServer) :
    Effect.procKilled srv.sid ∈ (exitServer s srv).1.trace ∧
    (srv.conn.isConnected = true → srv.conn.politeThrows = false →
      (exitServer s srv).1.trace =
        s.trace ++ [Effect.exitSent srv.sid, Effect.connDisposed srv.sid,
                    Effect.procKilled srv.sid] ∧ (exitServer s srv).2 = false) ∧
    (srv.conn.isConnected = true → srv.conn.politeThrows = true →
      (exitServer s srv).1.trace = s.trace ++ [Effect.procKilled srv.sid] ∧
      (exitServer s srv).2 = true) ∧
    (srv.conn.isConnected = false →
      (exitServer s srv).1.trace = s.trace ++ [Effect.procKilled srv.sid] ∧
      (exitServer s srv).2 = false) := by
  cases hc : srv.conn.isConnected <;> cases hp : srv.conn.politeThrows <;>
    simp [exitServer, hc, hp]

/-- A server whose polite teardown path throws. -/
def srvPolite : ActiveServer :=
  { sid := 9, projectPath := "/p/",
    conn := { isConnected := true, shutdownThrows := false, politeThrows := true } }

def seqEmpty : SeqState :=
  { activeServers := [], stoppingServers := [], editorToServer := [],
    restartCounters := [], trace := [], subs := [], isStarted := false }

theorem exitServer_always_kills_witness :
    (exitServer seqEmpty srvPolite).1.trace = [Effect.procKilled 9] ∧
    (exitServer seqEmpty srvPolite).2 = true :=
  (exitServer_always_kills seqEmpty srvPolite).2.2.1 rfl rfl

/-- C4: for an instance of the active registry whose stop resolves, the
resolved state has the instance out of the registry (it already is after the
synchronous phase, before the first suspension point, so no later `getServer`
can find it there), has no editor mapping left pointing to it, and its
process kill was signalled. -/
theorem stopServer_teardown (s : SeqState) (srv : ActiveServer)
    (hmem : srv ∈ s.activeServers) (hnd : s.activeServers.Nodup)
    (hres : (stopServer s srv).2 = false) :
    srv ∉ (stopServer s srv).1.activeServers ∧
    (∀ e sv, (e, sv) ∈ (stopServer s srv).1.editorToServer → sv ≠ srv) ∧
    Effect.procKilled srv.sid ∈ (stopServer s srv).1.trace ∧
    srv ∉ (stopServerPhase1 s srv).activeServers := by
  have hsp : spliceRemove s.activeServers srv = s.activeServers.erase srv := if_pos hmem
  have hnm : srv ∉ spliceRemove s.activeServers srv := by
    rw [hsp]; exact hnd.not_mem_erase
  cases hc : srv.conn.isConnected with
  | false =>
    refine ⟨?_, ?_, ?_, ?_⟩
    · simpa [stopServer, stopServerPhase1, exitServer, hc] using hnm
    · intro e sv hmm
      simp only [stopServer, stopServerPhase1, exitServer, hc, Bool.false_and,
        Bool.false_eq_true, if_false] at hmm
      exact mapping_filter_ne hmm
    · simp [stopServer, stopServerPhase1, exitServer, hc]
    · simpa [stopServerPhase1] using hnm
  | true =>
    cases hst : srv.conn.shutdownThrows with
    | true =>
      exfalso
      simp [stopServer, hc, hst] at hres
    | false =>
      cases hpt : srv.conn.politeThrows with
      | true =>
        exfalso
        simp [stopServer, stopServerPhase1, exitServer, hc, hst, hpt] at hres
      | false =>
        refine ⟨?_, ?_, ?_, ?_⟩
        · simpa [stopServer, stopServerPhase1, exitServer, hc, hst, hpt] using hnm
        · intro e sv hmm
          simp only [stopServer, stopServerPhase1, exitServer, hc, hst, hpt,
            Bool.true_and, Bool.false_eq_true, if_false, if_true] at hmm
          exact mapping_filter_ne hmm
        · simp [stopServer, stopServerPhase1, exitServer, hc, hst, hpt]
        · simpa [stopServerPhase1] using hnm

/-- One running server with a clean connection and a mapped editor. -/
def srvClean : ActiveServer := { sid := 4, projectPath := "/a/", conn := cleanConn }

def c4State : SeqState :=
  { activeServers := [srvClean], stoppingServers := [],
    editorToServer := [(0, srvClean)], restartCounters := [], trace := [],
    subs := [], isStarted := false }

theorem stopServer_teardown_witness :
    srvClean ∉ (stopServer c4State srvClean).1.activeServers ∧
    (∀ e sv, (e, sv) ∈ (stopServer c4State srvClean).1.editorToServer → sv ≠ srvClean) ∧
    Effect.procKilled srvClean.sid ∈ (stopServer c4State srvClean).1.trace ∧
    srvClean ∉ (stopServerPhase1 c4State srvClean).activeServers :=
  stopServer_teardown c4State srvClean (by decide) (by decide) (by decide)

/-- The state of a freshly constructed manager owning one clean server and
one mapped editor, after the host's initial `startListening` call. -/
def c8Start : SeqState :=
  startListening { activeServers := [srvClean], stoppingServers := [],
                   editorToServer := [(0, srvClean)], restartCounters := [],
                   trace := [], subs := [], isStarted := false }

/-- C8, divergence record: `startListening` subscribes but never sets
`_isStarted`, so the `stopListening` with which `restartAllServers` begins is
a no-op — one subscription set is still observing throughout the stop phase,
although the claim (and §4.2 of the specification) asserts observation is
suspended there. The registry and mapping are indeed empty on completion,
and the final `startListening` adds a second live subscription set instead
of resuming a suspended one. -/
theorem restartAll_listening_bug :
    c8Start.isStarted = false ∧
    activeSubs (stopListening c8Start) = 1 ∧
    (restartAllServers c8Start).1.activeServers = [] ∧
    (restartAllServers c8Start).1.editorToServer = [] ∧
    activeSubs (restartAllServers c8Start).1 = 2 := by
  refine ⟨rfl, by decide, by decide, by decide, by decide⟩

/-! ## Connection connectivity state (C9) -/

/-- The connectivity-relevant state of a `LanguageClientConnection`: the
`isConnected` field and the number of `close` events emitted so far. -/
structure ConnState where
  isConnected : Bool
  closeEmits : Nat
  deriving DecidableEq, Repr

/-- State established by the `LanguageClientConnection` constructor:
`isConnected = true`, and the `rpc.onClose` handler registered. -/
def connNew : ConnState := { isConnected := true, closeEmits := 0 }

/-- Events that can reach the connection: the transport close callback, or
any of the other operations of the class — none of which assigns
`isConnected` (verified against every method of `languageclient.ts`). -/
inductive ConnEvent where
  | rpcClosed
  | otherOp
  deriving DecidableEq, Repr

/-- The `rpc.onClose` handler sets `isConnected := false` and emits `close`;
every other operation leaves the connectivity state alone. -/
def connStep (s : ConnState) (e : ConnEvent) : ConnState :=
  match e with
  | .rpcClosed => { isConnected := false, closeEmits := s.closeEmits + 1 }
  | .otherOp => s

def runConn (evs : List ConnEvent) : ConnState := evs.foldl connStep connNew

theorem foldl_connStep (s : ConnState) (evs : List ConnEvent) :
    (evs.foldl connStep s).isConnected =
      (s.isConnected && !evs.contains ConnEvent.rpcClosed) ∧
    (evs.foldl connStep s).closeEmits =
      s.closeEmits + evs.count ConnEvent.rpcClosed := by
  induction evs generalizing s with
  | nil => simp
  | cons e rest ih =>
    cases e with
    | rpcClosed =>
      have := ih { isConnected := false, closeEmits := s.closeEmits + 1 }
      constructor
      · simpa [List.foldl_cons, connStep, List.contains_cons] using this.1
      · have h2 := this.2
        simp only [List.foldl_cons, connStep] at h2 ⊢
        rw [h2, List.count_cons]
        simp
        omega
    | otherOp =>
      have := ih s
      constructor
      · simpa [List.foldl_cons, connStep, List.contains_cons] using this.1
      · have h2 := this.2
        simp only [List.foldl_cons, connStep] at h2 ⊢
        rw [h2, List.count_cons]
        simp

/-- C9: a connection starts connected; after any sequence of events it is
connected exactly when no transport close has occurred, each close event
emits one `close` signal, and connectivity never recovers: if the state is
connected after a longer history, it was connected after every shorter
one. -/
theorem connection_close_irreversible :
    connNew.isConnected = true ∧
    (∀ evs : List ConnEvent,
      (runConn evs).isConnected = !evs.contains ConnEvent.rpcClosed) ∧
    (∀ evs : List ConnEvent,
      (runConn evs).closeEmits = evs.count ConnEvent.rpcClosed) ∧
    (∀ evs evs' : List ConnEvent,
      (runConn (evs ++ evs')).isConnected = true →
      (runConn evs).isConnected = true) := by
  refine ⟨rfl, ?_, ?_, ?_⟩
  · intro evs
    simpa [runConn, connNew] using (foldl_connStep connNew evs).1
  · intro evs
    simpa [runConn, connNew] using (foldl_connStep connNew evs).2
  · intro evs evs' h
    have h1 := (foldl_connStep connNew (evs ++ evs')).1
    have h2 := (foldl_connStep connNew evs).1
    rw [runConn] at h
    rw [h] at h1
    have hX : (evs ++ evs').contains ConnEvent.rpcClosed = false := by
      cases hcv : (evs ++ evs').contains ConnEvent.rpcClosed
      · rfl
      · rw [hcv] at h1
        simp [connNew] at h1
    have hX2 : evs.contains ConnEvent.rpcClosed = false := by
      simp only [List.contains, List.elem_eq_mem, decide_eq_false_iff_not] at hX ⊢
      intro hin
      exact hX (List.mem_append.mpr (Or.inl hin))
    rw [runConn, h2, hX2]
    rfl

theorem connection_close_irreversible_witness :
    (runConn [ConnEvent.otherOp, ConnEvent.rpcClosed, ConnEvent.otherOp]).isConnected =
      !([ConnEvent.otherOp, ConnEvent.rpcClosed,
         ConnEvent.otherOp].contains ConnEvent.rpcClosed) ∧
    ((runConn ([ConnEvent.otherOp] ++ [ConnEvent.otherOp])).isConnected = true →
      (runConn [ConnEvent.otherOp]).isConnected = true) :=
  ⟨connection_close_irreversible.2.1 [ConnEvent.otherOp, ConnEvent.rpcClosed,
      ConnEvent.otherOp],
    connection_close_irreversible.2.2.2 [ConnEvent.otherOp] [ConnEvent.otherOp]⟩

/-! ## Watched-file routing (C7) -/

/-- Protocol-side change kinds of a watched-file record. -/
inductive FileChangeType where
  | created
  | changed
  | deleted
  deriving DecidableEq, Repr

/-- A protocol watched-file-change record (`ls.FileEvent`). -/
structure LSFileEvent where
  uri : String
  typ : FileChangeType
  deriving DecidableEq, Repr

/-- Actions of an editor file-system change event. -/
inductive AtomAction where
  | created
  | modified
  | deleted
  | renamed
  deriving DecidableEq, Repr

/-- One editor file-system change event; `oldPath` is meaningful only for
`renamed` events. -/
structure AtomFileEvent where
  action : AtomAction
  path : String
  oldPath : String
  deriving DecidableEq, Repr

/-- Modelled from the spec: `Convert.atomFileEventToLSFileEvents` (the
conversion module is an external collaborator whose source is not part of
this core) — each event is translated into watched-file-change records, a
rename producing a create record for the new path and a delete record for
the old path (§8), other actions the single corresponding record; the URI is
the path as an opaque payload. -/
def atomFileEventToLSFileEvents (e : AtomFileEvent) : List LSFileEvent :=
  match e.action with
  | .created => [{ uri := e.path, typ := .created }]
  | .modified => [{ uri := e.path, typ := .changed }]
  | .deleted => [{ uri := e.path, typ := .deleted }]
  | .renamed => [{ uri := e.path, typ := .created }, { uri := e.oldPath, typ := .deleted }]

/-- The inner loop of `ServerManager.projectFilesChanged` for one active
server: an event whose path lies under the server's root and passes the
watched-file filter contributes record `[0]` of its translation; a renamed
event whose old path lies under the root and passes the filter additionally
contributes record `[1]`. -/
def changesForServer (wfilter : String → Bool) (root : String)
    (events : List AtomFileEvent) : List LSFileEvent :=
  events.foldl
    (fun changes e =>
      let c1 := if strStartsWith e.path root && wfilter e.path
                then changes ++ [(atomFileEventToLSFileEvents e).getD 0
                       { uri := "", typ := .changed }]
                else changes
      if (e.action == AtomAction.renamed) && strStartsWith e.oldPath root &&
          wfilter e.oldPath
      then c1 ++ [(atomFileEventToLSFileEvents e).getD 1 { uri := "", typ := .changed }]
      else c1) []

/-- `ServerManager.projectFilesChanged`: an early return when no server is
active; otherwise each active server whose filtered batch is non-empty is
sent that batch through `didChangeWatchedFiles` on its connection. -/
def projectFilesChanged (wfilter : String → Bool) (active : List ActiveServer)
    (events : List AtomFileEvent) : List (Nat × List LSFileEvent) :=
  if active.isEmpty then []
  else
    active.foldl
      (fun acc srv =>
        let changes := changesForServer wfilter srv.projectPath events
        if changes.isEmpty then acc else acc ++ [(srv.sid, changes)]) []

/-- The contribution of a single event, written after the claim: the records
of exactly those of its paths (new path; old path too when renamed) that lie
under the root and pass the filter. -/
def eventContribution (wfilter : String → Bool) (root : String) (e : AtomFileEvent) :
    List LSFileEvent :=
  (if strStartsWith e.path root && wfilter e.path
   then [(atomFileEventToLSFileEvents e).getD 0 { uri := "", typ := .changed }]
   else []) ++
  (if (e.action == AtomAction.renamed) && strStartsWith e.oldPath root && wfilter e.oldPath
   then [(atomFileEventToLSFileEvents e).getD 1 { uri := "", typ := .changed }]
   else [])

theorem changesForServer_foldl (wfilter : String → Bool) (root : String)
    (events : List AtomFileEvent) : ∀ acc : List LSFileEvent,
    events.foldl
      (fun changes e =>
        let c1 := if strStartsWith e.path root && wfilter e.path
                  then changes ++ [(atomFileEventToLSFileEvents e).getD 0
                         { uri := "", typ := .changed }]
                  else changes
        if (e.action == AtomAction.renamed) && strStartsWith e.oldPath root &&
            wfilter e.oldPath
        then c1 ++ [(atomFileEventToLSFileEvents e).getD 1 { uri := "", typ := .changed }]
        else c1) acc
      = acc ++ (events.map (eventContribution wfilter root)).flatten := by
  induction events with
  | nil => intro acc; simp
  | cons e rest ih =>
    intro acc
    rw [List.foldl_cons, ih, List.map_cons, List.flatten_cons]
    simp only [eventContribution]
    by_cases h1 : (strStartsWith e.path root && wfilter e.path) = true <;>
      by_cases h2 : ((e.action == AtomAction.renamed) && strStartsWith e.oldPath root &&
        wfilter e.oldPath) = true <;>
      simp [h1, h2, List.append_assoc]

theorem projectFilesChanged_foldl (wfilter : String → Bool)
    (events : List AtomFileEvent) (active : List ActiveServer) :
    ∀ acc : List (Nat × List LSFileEvent),
    active.foldl
      (fun acc srv =>
        let changes := changesForServer wfilter srv.projectPath events
        if changes.isEmpty then acc else acc ++ [(srv.sid, changes)]) acc
      = acc ++ (active.filter
          (fun srv => !(changesForServer wfilter srv.projectPath events).isEmpty)).map
          (fun srv => (srv.sid, changesForServer wfilter srv.projectPath events)) := by
  induction active with
  | nil => intro acc; simp
  | cons srv rest ih =>
    intro acc
    rw [List.foldl_cons, ih]
    by_cases h : (changesForServer wfilter srv.projectPath events).isEmpty = true
    · simp [h, List.filter_cons]
    · have hb : (changesForServer wfilter srv.projectPath events).isEmpty = false :=
        Bool.not_eq_true _ ▸ (by simpa using h)
      simp [hb, List.filter_cons, List.append_assoc]

/-- C7: the batch `projectFilesChanged` forwards is exactly, per active
server, the filtered-and-translated events — a server whose filtered batch
is empty receives nothing, and no active servers means no notifications;
each server's batch is the concatenation of the per-event contributions
(new-path record when under the root and passing the filter; for renames
additionally the old-path record under the same conditions); and a rename
whose two paths both qualify yields its create-new and delete-old records. -/
theorem projectFilesChanged_routing (wfilter : String → Bool)
    (active : List ActiveServer) (events : List AtomFileEvent) :
    projectFilesChanged wfilter active events
      = (active.filter
          (fun srv => !(changesForServer wfilter srv.projectPath events).isEmpty)).map
          (fun srv => (srv.sid, changesForServer wfilter srv.projectPath events)) ∧
    (∀ root, changesForServer wfilter root events
      = (events.map (eventContribution wfilter root)).flatten) ∧
    projectFilesChanged (fun _ => true)
      [{ sid := 5, projectPath := "/proj/", conn := cleanConn }]
      [{ action := .renamed, path := "/proj/new.txt", oldPath := "/proj/old.txt" }]
      = [(5, [{ uri := "/proj/new.txt", typ := .created },
              { uri := "/proj/old.txt", typ := .deleted }])] := by
  refine ⟨?_, ?_, by decide⟩
  · unfold projectFilesChanged
    by_cases h : active.isEmpty = true
    · have : active = [] := List.isEmpty_iff.mp h
      subst this
      simp
    · rw [if_neg h]
      exact projectFilesChanged_foldl wfilter events active []
  · intro root
    exact changesForServer_foldl wfilter root events []

/-- C10: `normalizePath` always returns a separator-terminated path and is
idempotent; consequently every entry of the recomputed Project Root Set is
separator-terminated (and instances inherit this, their project paths being
exactly these roots as handed to the start function). -/
theorem normalizePath_sep_terminated :
    (∀ p : String, endsWithSep (normalizePath p).data = true) ∧
    (∀ p : String, normalizePath (normalizePath p) = normalizePath p) ∧
    (∀ dirs : List String, ∀ r ∈ updateNormalizedProjectPaths dirs,
      endsWithSep r.data = true) := by
  refine ⟨?_, ?_, ?_⟩
  · intro p
    exact normalizePathCL_endsWithSep p.data
  · intro p
    exact congrArg String.mk (normalizePathCL_idem p.data)
  · intro dirs r hr
    unfold updateNormalizedProjectPaths at hr
    rcases List.mem_map.mp hr with ⟨d, _, hdr⟩
    rw [← hdr]
    exact normalizePathCL_endsWithSep d.data

theorem normalizePath_sep_terminated_witness :
    endsWithSep (normalizePath "/a").data = true ∧
    normalizePath (normalizePath "/a") = normalizePath "/a" ∧
    endsWithSep (normalizePath "/a/b/..").data = true :=
  ⟨normalizePath_sep_terminated.1 "/a",
   normalizePath_sep_terminated.2.1 "/a",
   normalizePath_sep_terminated.2.2 ["/a/b/.."] (normalizePath "/a/b/..") (by decide)⟩

end LspCore
